import Mathlib

/-!
Verification of the chess move-search engine in `Chess Game/Chess_Bot.py`
(class `ChessBot`).  The chess rules library (python-chess) is external to
the engine (spec section 6): it is modelled by the `Game` interface below.
Scores are rationals; the `float('-inf')` / `float('inf')` sentinels of the
search are modelled by the extended order `ER = WithBot (WithTop Rat)`.
-/

namespace ChessBot

/-- Extended evaluation scores: rationals together with the two infinities
used as alpha-beta sentinels (`float('-inf')`, `float('inf')`). -/
abbrev ER : Type := WithBot (WithTop ℚ)

/-- Embed a finite score into the extended order. -/
def qv (q : ℚ) : ER := ((q : WithTop ℚ) : ER)

/-- The six piece kinds of `chess.PieceType`. -/
inductive PieceType : Type
  | pawn
  | knight
  | bishop
  | rook
  | queen
  | king
deriving DecidableEq

/-- `self.piece_values` of `ChessBot.__init__`. -/
def piece_values : PieceType → ℤ
  | .pawn => 100
  | .knight => 320
  | .bishop => 330
  | .rook => 500
  | .queen => 900
  | .king => 20000

/-- A piece: colour (`true` = `chess.WHITE`) and kind, as `chess.Piece`. -/
structure Piece : Type where
  color : Bool
  ptype : PieceType
deriving DecidableEq

/-- A move as in `chess.Move`: origin square, destination square and an
optional promotion piece kind.  Squares are numbered 0..63 as in
python-chess (`square = file + 8 * rank`). -/
structure Move : Type where
  fromSquare : Fin 64
  toSquare : Fin 64
  promotion : Option PieceType
deriving DecidableEq

/-- The external chess-rules capability consumed by the engine
(spec section 6), over an abstract position type `Pos`:
legal-move enumeration, move application, the query predicates,
piece lookup, static evaluation of the position reached (the board
evaluator is verified separately on the concrete model `EPos`), and
FEN serialization used for opening-book keys. -/
structure Game (Pos : Type) : Type where
  legalMoves : Pos → List Move
  applyMove : Pos → Move → Pos
  isGameOver : Pos → Bool
  isCheckmate : Pos → Bool
  isCheck : Pos → Bool
  isCapture : Pos → Move → Bool
  pieceAt : Pos → Fin 64 → Option Piece
  evaluate : Pos → ℚ
  fen : Pos → String

/-- A `chess.Board`: the current position plus the stack of previous
positions that `board.pop()` restores (python-chess keeps a move stack;
popping restores the pre-push state). -/
structure Board (Pos : Type) : Type where
  current : Pos
  stack : List Pos

/-- `board.push(move)`. -/
def Board.push {Pos : Type} (G : Game Pos) (b : Board Pos) (m : Move) : Board Pos :=
  ⟨G.applyMove b.current m, b.current :: b.stack⟩

/-- `board.pop()` (restores the previous position; on an empty stack the
board is returned unchanged, a case the engine never reaches). -/
def Board.pop {Pos : Type} (b : Board Pos) : Board Pos :=
  match b with
  | ⟨c, []⟩ => ⟨c, []⟩
  | ⟨_, p :: s⟩ => ⟨p, s⟩

/-- The MVV-LVA block of `order_moves_fast` (lines 170-177): the score a
candidate move has before the promotion and check bonuses are added.
Mirrors the Python exactly: the victim is looked up at `move.to_square`,
and the score stays `0` unless both lookups return a piece. -/
def captureScore {Pos : Type} (G : Game Pos) (p : Pos) (m : Move) : ℤ :=
  if G.isCapture p m then
    match G.pieceAt p m.toSquare, G.pieceAt p m.fromSquare with
    | some victim, some aggressor =>
        piece_values victim.ptype - piece_values aggressor.ptype + 1000
    | _, _ => 0
  else 0

/-- `if move.promotion: score += 900`. -/
def promotionBonus (m : Move) : ℤ :=
  match m.promotion with
  | some _ => 900
  | none => 0

/-- One iteration of the scoring loop of `order_moves_fast`: compute the
move's score, temporarily pushing the move to test for check and popping
it again.  Returns the score together with the board after the iteration. -/
def scoreMove {Pos : Type} (G : Game Pos) (b : Board Pos) (m : Move) : ℤ × Board Pos :=
  let s1 := captureScore G b.current m
  let s2 := s1 + promotionBonus m
  let b1 := Board.push G b m
  let s3 := s2 + (if G.isCheck b1.current then 50 else 0)
  (s3, Board.pop b1)

/-- The scoring loop of `order_moves_fast`: builds the `move_scores` list
of `(score, move)` pairs, threading the board through the push/pop pairs. -/
def scoreMoves {Pos : Type} (G : Game Pos) (b : Board Pos) :
    List Move → List (ℤ × Move) × Board Pos
  | [] => ([], b)
  | m :: ms =>
    let r := scoreMove G b m
    let rest := scoreMoves G r.2 ms
    ((r.1, m) :: rest.1, rest.2)

/-- The ordering used to model
`move_scores.sort(reverse=True, key=lambda x: x[0])`: descending by
score.  Python's sort is stable; a stable sort under this ordering (the
output being uniquely determined by sortedness, stability and being a
permutation) is its exact counterpart, realised here by
`List.insertionSort`. -/
def moveDesc (a b : ℤ × Move) : Prop := b.1 ≤ a.1

instance : DecidableRel moveDesc :=
  fun a b => inferInstanceAs (Decidable (b.1 ≤ a.1))

instance : IsTotal (ℤ × Move) moveDesc :=
  ⟨fun a b => le_total b.1 a.1⟩

instance : IsTrans (ℤ × Move) moveDesc :=
  ⟨fun _ _ _ hab hbc => le_trans hbc hab⟩

/-- `order_moves_fast` (lines 162-193): score every move, sort the pairs
descending by score with a stable sort, and return the moves.  The board
after the call is returned alongside (it is proved equal to the input). -/
def order_moves_fast {Pos : Type} (G : Game Pos) (b : Board Pos) (moves : List Move) :
    List Move × Board Pos :=
  let r := scoreMoves G b moves
  ((r.1.insertionSort moveDesc).map (fun x => x.2), r.2)

/-- The score `order_moves_fast` assigns to a move of a fixed board
(the board is restored between iterations, so the score of each candidate
is computed on the original position). -/
def scoreOfMove {Pos : Type} (G : Game Pos) (b : Board Pos) (m : Move) : ℤ :=
  (scoreMove G b m).1

/-- The maximizing loop of `minimax_alpha_beta` (lines 213-226),
parameterized by the one-level-shallower recursive search `rec`:
`max_eval` is the accumulator, `alpha` is raised to each child score, and
the loop breaks as soon as `beta <= alpha`. -/
def abMaxLoop {Pos : Type} (G : Game Pos)
    (rec : Board Pos → ER → ER → ER × Board Pos × ℕ) :
    List Move → Board Pos → ER → ER → ER → ER × Board Pos × ℕ
  | [], b, _, _, acc => (acc, b, 0)
  | m :: ms, b, alpha, beta, acc =>
    let b1 := Board.push G b m
    let r := rec b1 alpha beta
    let b2 := Board.pop r.2.1
    let acc' := max acc r.1
    let alpha' := max alpha r.1
    if beta ≤ alpha' then (acc', b2, r.2.2)
    else
      let rest := abMaxLoop G rec ms b2 alpha' beta acc'
      (rest.1, rest.2.1, r.2.2 + rest.2.2)

/-- The minimizing loop of `minimax_alpha_beta` (lines 227-240):
`min_eval` is the accumulator, `beta` is lowered to each child score, and
the loop breaks as soon as `beta <= alpha`. -/
def abMinLoop {Pos : Type} (G : Game Pos)
    (rec : Board Pos → ER → ER → ER × Board Pos × ℕ) :
    List Move → Board Pos → ER → ER → ER → ER × Board Pos × ℕ
  | [], b, _, _, acc => (acc, b, 0)
  | m :: ms, b, alpha, beta, acc =>
    let b1 := Board.push G b m
    let r := rec b1 alpha beta
    let b2 := Board.pop r.2.1
    let acc' := min acc r.1
    let beta' := min beta r.1
    if beta' ≤ alpha then (acc', b2, r.2.2)
    else
      let rest := abMinLoop G rec ms b2 alpha beta' acc'
      (rest.1, rest.2.1, r.2.2 + rest.2.2)

/-- `minimax_alpha_beta` (lines 195-240), with the board threaded
explicitly and the `self.nodes_searched` increments returned as the third
component.  The `depth == 0` test comes before the game-over test, exactly
as in the source; the recursive calls of the loops flip `maximizing` and
decrement the depth. -/
def minimax_alpha_beta {Pos : Type} (G : Game Pos) :
    ℕ → Board Pos → ER → ER → Bool → ER × Board Pos × ℕ
  | 0, b, _, _, _ => (qv (G.evaluate b.current), b, 1)
  | d + 1, b, alpha, beta, maximizing =>
    if G.isGameOver b.current then
      (if G.isCheckmate b.current then
        (if maximizing then qv (-100000) else qv 100000)
       else qv 0, b, 1)
    else
      let om := order_moves_fast G b (G.legalMoves b.current)
      if maximizing then
        let r := abMaxLoop G (fun bb aa bb2 => minimax_alpha_beta G d bb aa bb2 false)
          om.1 om.2 alpha beta ⊥
        (r.1, r.2.1, r.2.2 + 1)
      else
        let r := abMinLoop G (fun bb aa bb2 => minimax_alpha_beta G d bb aa bb2 true)
          om.1 om.2 alpha beta ⊤
        (r.1, r.2.1, r.2.2 + 1)

/-!
The move tree explored by one search invocation: a position unfolded to a
fixed depth with a fixed child order (the ordered legal moves).  A leaf
carries the finite score the search bottoms out with there — either the
static evaluation (`depth == 0`) or a terminal value (game over).  Both
the pruned search and the exhaustive minimax of spec section 8 walk this
same tree.
-/

/-- A move tree with finite scores at the leaves. -/
inductive GameTree : Type
  | leaf (v : ℚ) : GameTree
  | node (children : List GameTree) : GameTree

mutual

/-- Modelled from the spec: the exhaustive (non-pruned) minimax of
testable property "Alpha-beta equivalence" — same move tree, same leaf
evaluation, running maximum/minimum over all children, no pruning. -/
def exhaustiveMinimax : GameTree → Bool → ER
  | .leaf v, _ => qv v
  | .node cs, true => mmMaxLoop cs ⊥
  | .node cs, false => mmMinLoop cs ⊤
termination_by t _ => sizeOf t

/-- Running maximum over all children (no pruning). -/
def mmMaxLoop : List GameTree → ER → ER
  | [], acc => acc
  | c :: cs, acc => mmMaxLoop cs (max acc (exhaustiveMinimax c false))
termination_by cs _ => sizeOf cs

/-- Running minimum over all children (no pruning). -/
def mmMinLoop : List GameTree → ER → ER
  | [], acc => acc
  | c :: cs, acc => mmMinLoop cs (min acc (exhaustiveMinimax c true))
termination_by cs _ => sizeOf cs

end

mutual

/-- The score computation of `minimax_alpha_beta` on the move tree: the
same control flow as lines 213-240 (running extremum, window update,
`break` once `beta <= alpha`) with positions and depth abstracted into
the tree. -/
def treeAlphaBeta : GameTree → ER → ER → Bool → ER
  | .leaf v, _, _, _ => qv v
  | .node cs, alpha, beta, true => treeMaxLoop cs alpha beta ⊥
  | .node cs, alpha, beta, false => treeMinLoop cs alpha beta ⊤
termination_by t _ _ _ => sizeOf t

/-- The maximizing loop: `max_eval` accumulator, `alpha = max(alpha, e)`,
break when `beta <= alpha`. -/
def treeMaxLoop : List GameTree → ER → ER → ER → ER
  | [], _, _, acc => acc
  | c :: cs, alpha, beta, acc =>
    let e := treeAlphaBeta c alpha beta false
    let acc' := max acc e
    let alpha' := max alpha e
    if beta ≤ alpha' then acc' else treeMaxLoop cs alpha' beta acc'
termination_by cs _ _ _ => sizeOf cs

/-- The minimizing loop: `min_eval` accumulator, `beta = min(beta, e)`,
break when `beta <= alpha`. -/
def treeMinLoop : List GameTree → ER → ER → ER → ER
  | [], _, _, acc => acc
  | c :: cs, alpha, beta, acc =>
    let e := treeAlphaBeta c alpha beta true
    let acc' := min acc e
    let beta' := min beta e
    if beta' ≤ alpha then acc' else treeMinLoop cs alpha beta' acc'
termination_by cs _ _ _ => sizeOf cs

end

/-- The Knuth-Moore fail-soft relation between a pruned result `v` and the
exact minimax value `V` under a window `(alpha, beta)`: a fail-low result
bounds `V` from above, a fail-high result bounds it from below, and a
result strictly inside the window is exact. -/
def KM (v V alpha beta : ER) : Prop :=
  (v ≤ alpha → V ≤ v) ∧ (beta ≤ v → v ≤ V) ∧ (alpha < v → v < beta → v = V)

/-!
Concrete model of the board evaluator.  `evaluate_board` reads the piece
placement and the side to move directly, and consults the rules library
only through the predicates `is_checkmate`, `is_stalemate`,
`is_insufficient_material` and the legal-move count; `EPos` therefore
carries the placement and turn concretely and those externally computed
facts as fields.
-/

/-- A position as seen by `evaluate_board`. -/
structure EPos : Type where
  pieces : Fin 64 → Option Piece
  turn : Bool
  checkmate : Bool
  stalemate : Bool
  insufficientMaterial : Bool
  mobility : ℕ

/-- `chess.square_mirror`: flip the square vertically (same file,
rank `7 - rank`). -/
def mirrorSq (sq : Fin 64) : Fin 64 :=
  ⟨sq.val % 8 + 8 * (7 - sq.val / 8), by omega⟩

/-- `chess.square(file, rank) = file + 8 * rank` (arguments are reduced
mod 8 to totalize; every call site is in range). -/
def squareOf (f r : ℕ) : Fin 64 :=
  ⟨f % 8 + 8 * (r % 8), by omega⟩

/-- File of a square (`chess.square_file`). -/
def fileOf (sq : Fin 64) : ℕ := sq.val % 8

/-- Rank of a square (`chess.square_rank`). -/
def rankOf (sq : Fin 64) : ℕ := sq.val / 8

/-- `self.pawn_table`. -/
def pawn_table : List ℤ :=
  [0, 0, 0, 0, 0, 0, 0, 0,
   50, 50, 50, 50, 50, 50, 50, 50,
   10, 10, 20, 30, 30, 20, 10, 10,
   5, 5, 10, 25, 25, 10, 5, 5,
   0, 0, 0, 20, 20, 0, 0, 0,
   5, -5, -10, 0, 0, -10, -5, 5,
   5, 10, 10, -20, -20, 10, 10, 5,
   0, 0, 0, 0, 0, 0, 0, 0]

/-- `self.knight_table`. -/
def knight_table : List ℤ :=
  [-50, -40, -30, -30, -30, -30, -40, -50,
   -40, -20, 0, 0, 0, 0, -20, -40,
   -30, 0, 10, 15, 15, 10, 0, -30,
   -30, 5, 15, 20, 20, 15, 5, -30,
   -30, 0, 15, 20, 20, 15, 0, -30,
   -30, 5, 10, 15, 15, 10, 5, -30,
   -40, -20, 0, 5, 5, 0, -20, -40,
   -50, -40, -30, -30, -30, -30, -40, -50]

/-- `self.bishop_table`. -/
def bishop_table : List ℤ :=
  [-20, -10, -10, -10, -10, -10, -10, -20,
   -10, 0, 0, 0, 0, 0, 0, -10,
   -10, 0, 5, 10, 10, 5, 0, -10,
   -10, 5, 5, 10, 10, 5, 5, -10,
   -10, 0, 10, 10, 10, 10, 0, -10,
   -10, 10, 10, 10, 10, 10, 10, -10,
   -10, 5, 0, 0, 0, 0, 5, -10,
   -20, -10, -10, -10, -10, -10, -10, -20]

/-- `table[square]`. -/
def tableAt (t : List ℤ) (sq : Fin 64) : ℤ := t.getD sq.val 0

/-- Python `int()`: truncation toward zero. -/
def pyInt (x : ℚ) : ℤ := if 0 ≤ x then ⌊x⌋ else ⌈x⌉

/-- `get_positional_bonus` (lines 89-115): mirror the square for black
pieces, then look up the piece-square table (pawn/knight/bishop), the
centre-file bonus (rook), or the centre-distance bonus (queen). -/
def get_positional_bonus (p : Piece) (square : Fin 64) : ℤ :=
  let sq := if p.color = false then mirrorSq square else square
  match p.ptype with
  | .pawn => tableAt pawn_table sq
  | .knight => tableAt knight_table sq
  | .bishop => tableAt bishop_table sq
  | .rook =>
      if fileOf sq = 2 ∨ fileOf sq = 3 ∨ fileOf sq = 4 ∨ fileOf sq = 5 then 10 else 0
  | .queen =>
      let centerDistance : ℚ := |7 / 2 - (fileOf sq : ℚ)| + |7 / 2 - (rankOf sq : ℚ)|
      pyInt ((8 - centerDistance) * 5)
  | .king => 0

/-- The contribution of one square to the material-plus-positional sum of
`evaluate_board` (lines 66-75): added for White pieces, subtracted for
Black pieces, zero for empty squares. -/
def pieceContrib (op : Option Piece) (sq : Fin 64) : ℤ :=
  match op with
  | none => 0
  | some p =>
      let v := piece_values p.ptype + get_positional_bonus p sq
      if p.color then v else -v

/-- The material-and-positional sum over the piece map. -/
def materialPositional (P : EPos) : ℤ :=
  ∑ sq : Fin 64, pieceContrib (P.pieces sq) sq

/-- White pawn. -/
def whitePawn : Piece := ⟨true, .pawn⟩

/-- Black pawn. -/
def blackPawn : Piece := ⟨false, .pawn⟩

/-- `[max(0, file-1), file, min(7, file+1)]`. -/
def fileCandidates (file : ℕ) : List ℕ := [max 0 (file - 1), file, min 7 (file + 1)]

/-- The passed-pawn test for a White pawn (lines 128-136): no Black pawn
on the same or an adjacent file on any rank strictly ahead. -/
def whitePassed (P : EPos) (file rank : ℕ) : Bool :=
  (fileCandidates file).all fun f =>
    (List.range' (rank + 1) (8 - (rank + 1))).all fun r =>
      !(P.pieces (squareOf f r) == some blackPawn)

/-- The passed-pawn test for a Black pawn (lines 147-155): no White pawn
on the same or an adjacent file on any rank strictly behind
(`range(0, rank)`). -/
def blackPassed (P : EPos) (file rank : ℕ) : Bool :=
  (fileCandidates file).all fun f =>
    (List.range rank).all fun r =>
      !(P.pieces (squareOf f r) == some whitePawn)

/-- `evaluate_pawn_structure_simple` (lines 117-160): `rank * 10` for
each passed White pawn, minus `(7 - rank) * 10` for each passed Black
pawn. -/
def evaluate_pawn_structure_simple (P : EPos) : ℤ :=
  (∑ sq : Fin 64,
    if P.pieces sq = some whitePawn ∧ whitePassed P (fileOf sq) (rankOf sq) = true then
      (rankOf sq : ℤ) * 10
    else 0)
  - ∑ sq : Fin 64,
      if P.pieces sq = some blackPawn ∧ blackPassed P (fileOf sq) (rankOf sq) = true then
        (7 - (rankOf sq : ℤ)) * 10
      else 0

/-- The mobility term of `evaluate_board` (lines 77-82): `+5` per legal
move if White to move, `-5` per legal move if Black to move. -/
def mobilityTerm (P : EPos) : ℤ :=
  if P.turn then (P.mobility : ℤ) * 5 else -((P.mobility : ℤ) * 5)

/-- `evaluate_board` (lines 55-87): terminal shortcuts first (checkmate
`±100000` by side to move, stalemate or insufficient material `0`), then
the accumulated integer score divided by `100.0`. -/
def evaluate_board (P : EPos) : ℚ :=
  if P.checkmate then (if P.turn then -100000 else 100000)
  else if P.stalemate || P.insufficientMaterial then 0
  else
    ((materialPositional P + mobilityTerm P + evaluate_pawn_structure_simple P : ℤ) : ℚ) / 100

/-- Flip a piece's colour. -/
def flipPiece (p : Piece) : Piece := ⟨!p.color, p.ptype⟩

/-- The colour-mirrored counterpart of a position: pieces reflected
vertically with colours swapped, side to move swapped.  Checkmate,
stalemate, insufficient material and the legal-move count are invariant
under this reflection in chess, so the externally supplied fields carry
over. -/
def mirrorEPos (P : EPos) : EPos where
  pieces := fun sq => (P.pieces (mirrorSq sq)).map flipPiece
  turn := !P.turn
  checkmate := P.checkmate
  stalemate := P.stalemate
  insufficientMaterial := P.insufficientMaterial
  mobility := P.mobility

/-- The mobility contribution inside the final score of `evaluate_board`
(zero on the terminal shortcuts, else the mobility term divided by 100
like the rest of the sum). -/
def mobilityContrib (P : EPos) : ℚ :=
  if P.checkmate then 0
  else if P.stalemate || P.insufficientMaterial then 0
  else ((mobilityTerm P : ℤ) : ℚ) / 100

/-!
Opening book and the iterative-deepening driver `get_best_move_fast`.
Wall-clock readings (`time.time()`) are modelled by an oracle
`clock : Nat -> Rat` giving the value of the i-th call, consumed in
program order; `start_time` is reading 0.
-/

/-- A move without promotion, as produced by `chess.Move.from_uci` for a
four-character UCI string. -/
def uciMove (a b : Fin 64) : Move := ⟨a, b, none⟩

/-- `chess.Move.from_uci("e2e4")` (e2 = 12, e4 = 28). -/
def mvE2E4 : Move := uciMove 12 28

/-- `chess.Move.from_uci("d2d4")`. -/
def mvD2D4 : Move := uciMove 11 27

/-- `chess.Move.from_uci("g1f3")`. -/
def mvG1F3 : Move := uciMove 6 21

/-- `chess.Move.from_uci("e7e5")`. -/
def mvE7E5 : Move := uciMove 52 36

/-- `chess.Move.from_uci("c7c5")`. -/
def mvC7C5 : Move := uciMove 50 34

/-- `chess.Move.from_uci("e7e6")`. -/
def mvE7E6 : Move := uciMove 52 44

/-- The `opening_moves` dictionary of `get_opening_move` (lines 303-314),
keys exactly as written in the source: full FEN strings including the
turn, castling, en-passant and move-count fields. -/
def opening_moves : List (String × List Move) :=
  [("rnbqkbnr/pppppppp/8/8/8/8/PPPPPPPP/RNBQKBNR w KQkq - 0 1",
    [mvE2E4, mvD2D4, mvG1F3]),
   ("rnbqkbnr/pppppppp/8/8/4P3/8/PPPP1PPP/RNBQKBNR b KQkq - 0 1",
    [mvE7E5, mvC7C5, mvE7E6])]

/-- The candidate loop of `get_opening_move`: first book candidate that is
currently legal, else none. -/
def firstLegal (legal : List Move) : List Move → Option Move
  | [] => none
  | m :: ms => if m ∈ legal then some m else firstLegal legal ms

/-- `board.fen().split(' ')[0]`: the characters of the FEN string up to
(but not including) the first space — the piece-placement portion. -/
def fenHead (s : String) : String :=
  ⟨s.data.takeWhile (fun c => !(c == ' '))⟩

/-- `get_opening_move` (lines 301-323): look up `board.fen().split(' ')[0]`
(the piece-placement portion) among the dictionary keys and return the
first legal candidate of the matching entry. -/
def get_opening_move {Pos : Type} (G : Game Pos) (p : Pos) : Option Move :=
  let fen := fenHead (G.fen p)
  match opening_moves.find? (fun e => e.1 == fen) with
  | some entry => firstLegal (G.legalMoves p) entry.2
  | none => none

/-- Instrumentation returned alongside the selected move: total
`minimax_alpha_beta` node count, number of opening-book lookups, and
number of driver-level `order_moves_fast` calls. -/
structure Stats : Type where
  nodes : ℕ
  bookLookups : ℕ
  orderings : ℕ
deriving DecidableEq

/-- The state of the root-move loop of `get_best_move_fast` when it
finishes or hard-returns: `hardReturn = some r` means the Python function
returned `r` from inside the loop (time limit hit). -/
structure RootOut (Pos : Type) : Type where
  hardReturn : Option (Option Move)
  cb : Option Move
  cbv : ER
  board : Board Pos
  clockIdx : ℕ
  nodes : ℕ

/-- The inner loop of `get_best_move_fast` (lines 273-284): before each
candidate check the elapsed time (one clock reading) and hard-return
`best_move if best_move else legal_moves[0]` on overrun; otherwise push
the move, search with the full window and `maximizing=False`, pop, and
keep the strictly best value. -/
def rootMoveLoop {Pos : Type} (G : Game Pos) (d : ℕ) (start limit : ℚ)
    (clock : ℕ → ℚ) (ordered : List Move) (bestSoFar : Option Move) :
    List Move → Board Pos → ℕ → Option Move → ER → ℕ → RootOut Pos
  | [], b, i, cb, cbv, nodes => ⟨none, cb, cbv, b, i, nodes⟩
  | m :: ms, b, i, cb, cbv, nodes =>
    if limit < clock i - start then
      ⟨some (match bestSoFar with | some mv => some mv | none => ordered.head?),
       cb, cbv, b, i, nodes⟩
    else
      let b1 := Board.push G b m
      let r := minimax_alpha_beta G d b1 ⊥ ⊤ false
      let b2 := Board.pop r.2.1
      if cbv < r.1 then
        rootMoveLoop G d start limit clock ordered bestSoFar ms b2 (i + 1)
          (some m) r.1 (nodes + r.2.2)
      else
        rootMoveLoop G d start limit clock ordered bestSoFar ms b2 (i + 1)
          cb cbv (nodes + r.2.2)

/-- The iterative-deepening loop of `get_best_move_fast` (lines 266-297):
run the root-move loop at each depth, adopt the depth's best move, return
immediately on a mate-level score (`> 5000`), and stop deepening once the
elapsed time (one clock reading per completed depth) exceeds half the
budget; the final return is `best_move if best_move else
legal_moves[0]`. -/
def deepenLoop {Pos : Type} (G : Game Pos) (start limit : ℚ) (clock : ℕ → ℚ)
    (ordered : List Move) :
    List ℕ → Board Pos → ℕ → Option Move → ℕ → Option Move × ℕ
  | [], _, _, best, nodes =>
    (match best with | some m => some m | none => ordered.head?, nodes)
  | dep :: ds, b, i, best, nodes =>
    let out := rootMoveLoop G (dep - 1) start limit clock ordered best ordered b i none ⊥ 0
    match out.hardReturn with
    | some ret => (ret, nodes + out.nodes)
    | none =>
      let best' := match out.cb with | some m => some m | none => best
      if qv 5000 < out.cbv then (out.cb, nodes + out.nodes)
      else if limit / 2 < clock out.clockIdx - start then
        (match best' with | some m => some m | none => ordered.head?, nodes + out.nodes)
      else deepenLoop G start limit clock ordered ds out.board (out.clockIdx + 1) best'
        (nodes + out.nodes)

/-- `get_best_move_fast` (lines 242-299), the engine's `select_move`: no
legal moves yields none; exactly one legal move is returned immediately;
then the opening book; then the ordered root list and iterative deepening
over depths `1 .. max_depth`. -/
def get_best_move_fast {Pos : Type} (G : Game Pos) (p : Pos) (max_depth : ℕ)
    (time_limit : ℚ) (clock : ℕ → ℚ) : Option Move × Stats :=
  let start := clock 0
  let legal := G.legalMoves p
  if legal.isEmpty then (none, ⟨0, 0, 0⟩)
  else if legal.length = 1 then (legal.head?, ⟨0, 0, 0⟩)
  else
    match get_opening_move G p with
    | some m => (some m, ⟨0, 1, 0⟩)
    | none =>
      let ob := order_moves_fast G ⟨p, []⟩ legal
      let r := deepenLoop G start time_limit clock ob.1 (List.range' 1 max_depth) ob.2 1 none 0
      (r.1, ⟨r.2, 1, 1⟩)

/-!
Concrete rule-library instances used to evaluate the engine at specific
positions.  Each instance records the facts the real rules library
(python-chess) reports for the position in question.
-/

/-- The standard starting position (White to move): its true FEN
serialization and its 20 legal opening moves. -/
def startGame : Game Unit where
  legalMoves := fun _ =>
    [uciMove 8 16, uciMove 8 24, uciMove 9 17, uciMove 9 25,
     uciMove 10 18, uciMove 10 26, uciMove 11 19, uciMove 11 27,
     uciMove 12 20, uciMove 12 28, uciMove 13 21, uciMove 13 29,
     uciMove 14 22, uciMove 14 30, uciMove 15 23, uciMove 15 31,
     uciMove 1 16, uciMove 1 18, uciMove 6 21, uciMove 6 23]
  applyMove := fun _ _ => ()
  isGameOver := fun _ => false
  isCheckmate := fun _ => false
  isCheck := fun _ => false
  isCapture := fun _ _ => false
  pieceAt := fun _ _ => none
  evaluate := fun _ => 0
  fen := fun _ => "rnbqkbnr/pppppppp/8/8/8/8/PPPPPPPP/RNBQKBNR w KQkq - 0 1"

/-- The en-passant capture e5xd6 in the position
`k7/8/8/3pP3/8/8/8/7K w - d6` (White pawn e5, Black pawn d5 just having
played d7-d5): a legal capture whose destination square d6 is empty. -/
def epMove : Move := uciMove 36 43

/-- The rules facts for the en-passant position `k7/8/8/3pP3/8/8/8/7K w - d6`:
`is_capture(e5d6)` is true, yet `piece_at(d6)` is `None` (the captured
pawn stands on d5, not on the destination square). -/
def epGame : Game Unit where
  legalMoves := fun _ => [epMove]
  applyMove := fun _ _ => ()
  isGameOver := fun _ => false
  isCheckmate := fun _ => false
  isCheck := fun _ => false
  isCapture := fun _ m => m == epMove
  pieceAt := fun _ s =>
    if s = 36 then some whitePawn
    else if s = 35 then some blackPawn
    else if s = 7 then some ⟨true, .king⟩
    else if s = 56 then some ⟨false, .king⟩
    else none
  evaluate := fun _ => 0
  fen := fun _ => "k7/8/8/3pP3/8/8/8/7K w - d6 0 2"

/-- An ordinary capture: White pawn a2 takes a Black rook on b3. -/
def capMove : Move := uciMove 8 17

/-- Rules facts for a position where a2xb3 captures a rook standing on
the destination square. -/
def capGame : Game Unit where
  legalMoves := fun _ => [capMove]
  applyMove := fun _ _ => ()
  isGameOver := fun _ => false
  isCheckmate := fun _ => false
  isCheck := fun _ => false
  isCapture := fun _ m => m == capMove
  pieceAt := fun _ s =>
    if s = 8 then some whitePawn
    else if s = 17 then some ⟨false, .rook⟩
    else if s = 4 then some ⟨true, .king⟩
    else if s = 60 then some ⟨false, .king⟩
    else none
  evaluate := fun _ => 0
  fen := fun _ => "4k3/8/8/8/8/1r6/P7/4K3 w - - 0 1"

/-- A finished game (checkmate) whose static evaluation is 7: used to
observe that a depth-0 search call returns the evaluator's score even
when the game is over. -/
def overGame : Game Unit where
  legalMoves := fun _ => []
  applyMove := fun _ _ => ()
  isGameOver := fun _ => true
  isCheckmate := fun _ => true
  isCheck := fun _ => true
  isCapture := fun _ _ => false
  pieceAt := fun _ _ => none
  evaluate := fun _ => 7
  fen := fun _ => "over"

/-- A position with exactly one legal move. -/
def oneMoveGame : Game Unit where
  legalMoves := fun _ => [uciMove 0 1]
  applyMove := fun _ _ => ()
  isGameOver := fun _ => false
  isCheckmate := fun _ => false
  isCheck := fun _ => false
  isCapture := fun _ _ => false
  pieceAt := fun _ _ => none
  evaluate := fun _ => 0
  fen := fun _ => "one"

/-- A position with exactly two legal moves (no book entry). -/
def twoMoveGame : Game Unit where
  legalMoves := fun _ => [uciMove 0 1, uciMove 0 8]
  applyMove := fun _ _ => ()
  isGameOver := fun _ => false
  isCheckmate := fun _ => false
  isCheck := fun _ => false
  isCapture := fun _ _ => false
  pieceAt := fun _ _ => none
  evaluate := fun _ => 0
  fen := fun _ => "two"

/-- A checkmate position with White to move (White has been mated). -/
def mateWhitePos : EPos := ⟨fun _ => none, true, true, false, false, 0⟩

/-- A checkmate position with Black to move (Black has been mated). -/
def mateBlackPos : EPos := ⟨fun _ => none, false, true, false, false, 0⟩

/-- A stalemate position. -/
def stalematePos : EPos := ⟨fun _ => none, true, false, true, false, 0⟩

/-!
Theorems.  First the push/pop discipline: every temporary move
application inside the orderer and the search is paired with an undo on
every exit path, so the board coming out of a call is the board that went
in.
-/

theorem Board.pop_push {Pos : Type} (G : Game Pos) (b : Board Pos) (m : Move) :
    Board.pop (Board.push G b m) = b := rfl

theorem scoreMove_board {Pos : Type} (G : Game Pos) (b : Board Pos) (m : Move) :
    (scoreMove G b m).2 = b := rfl

theorem scoreMoves_eq {Pos : Type} (G : Game Pos) (b : Board Pos) (ms : List Move) :
    scoreMoves G b ms = (ms.map (fun m => (scoreOfMove G b m, m)), b) := by
  induction ms with
  | nil => rfl
  | cons m ms ih =>
    simp only [scoreMoves, scoreMove_board, ih]
    rfl

theorem order_moves_fast_board {Pos : Type} (G : Game Pos) (b : Board Pos)
    (ms : List Move) : (order_moves_fast G b ms).2 = b := by
  simp [order_moves_fast, scoreMoves_eq]

theorem abMaxLoop_board {Pos : Type} (G : Game Pos)
    (rec : Board Pos → ER → ER → ER × Board Pos × ℕ)
    (hrec : ∀ (b : Board Pos) (alpha beta : ER), (rec b alpha beta).2.1 = b) :
    ∀ (ms : List Move) (b : Board Pos) (alpha beta acc : ER),
      (abMaxLoop G rec ms b alpha beta acc).2.1 = b := by
  intro ms
  induction ms with
  | nil => intro b alpha beta acc; rfl
  | cons m ms ih =>
    intro b alpha beta acc
    simp only [abMaxLoop, hrec, Board.pop_push]
    split
    · rfl
    · simp [ih]

theorem abMinLoop_board {Pos : Type} (G : Game Pos)
    (rec : Board Pos → ER → ER → ER × Board Pos × ℕ)
    (hrec : ∀ (b : Board Pos) (alpha beta : ER), (rec b alpha beta).2.1 = b) :
    ∀ (ms : List Move) (b : Board Pos) (alpha beta acc : ER),
      (abMinLoop G rec ms b alpha beta acc).2.1 = b := by
  intro ms
  induction ms with
  | nil => intro b alpha beta acc; rfl
  | cons m ms ih =>
    intro b alpha beta acc
    simp only [abMinLoop, hrec, Board.pop_push]
    split
    · rfl
    · simp [ih]

theorem minimax_alpha_beta_board {Pos : Type} (G : Game Pos) :
    ∀ (d : ℕ) (b : Board Pos) (alpha beta : ER) (mx : Bool),
      (minimax_alpha_beta G d b alpha beta mx).2.1 = b := by
  intro d
  induction d with
  | zero => intro b alpha beta mx; rfl
  | succ d ih =>
    intro b alpha beta mx
    simp only [minimax_alpha_beta]
    split
    · rfl
    · split
      · simpa [order_moves_fast_board] using
          abMaxLoop_board G _ (fun b' a' b'' => ih b' a' b'' false) _ _ _ _ _
      · simpa [order_moves_fast_board] using
          abMinLoop_board G _ (fun b' a' b'' => ih b' a' b'' true) _ _ _ _ _

/-- Claim C4: for every position, after a call to the Move Orderer
(`order_moves_fast`) or to the recursive search (`minimax_alpha_beta`) at
any depth returns — including returns via the alpha-beta pruning break —
the position is exactly its pre-call state: every temporary move
application is paired with an undo on every exit path, so the position
(and hence its serialization) before and after the call is identical. -/
theorem board_restored_after_order_and_search :
    (∀ (Pos : Type) (G : Game Pos) (b : Board Pos) (ms : List Move),
      (order_moves_fast G b ms).2 = b) ∧
    (∀ (Pos : Type) (G : Game Pos) (d : ℕ) (b : Board Pos) (alpha beta : ER)
      (mx : Bool), (minimax_alpha_beta G d b alpha beta mx).2.1 = b) :=
  ⟨fun _ G b ms => order_moves_fast_board G b ms,
   fun _ G d b alpha beta mx => minimax_alpha_beta_board G d b alpha beta mx⟩

/-- Claim C10: in `minimax_alpha_beta` the `depth == 0` base case is
tested before the game-over test: a call at depth 0 returns the static
evaluator's score for every position (even a finished one), so the
search's own `±100000`-by-`maximizing` terminal rule only ever applies at
depth at least 1. -/
theorem depth_zero_tested_before_game_over :
    (∀ (Pos : Type) (G : Game Pos) (b : Board Pos) (alpha beta : ER) (mx : Bool),
      (minimax_alpha_beta G 0 b alpha beta mx).1 = qv (G.evaluate b.current)) ∧
    (∀ (Pos : Type) (G : Game Pos) (d : ℕ) (b : Board Pos) (alpha beta : ER)
      (mx : Bool), G.isGameOver b.current = true →
      (minimax_alpha_beta G (d + 1) b alpha beta mx).1 =
        (if G.isCheckmate b.current then
          (if mx then qv (-100000) else qv 100000)
         else qv 0)) := by
  constructor
  · intro Pos G b alpha beta mx; rfl
  · intro Pos G d b alpha beta mx h
    simp [minimax_alpha_beta, h]

/-- Witness for C10 at a concrete finished (checkmated) position whose
static evaluation is 7: depth 0 returns the evaluator's score although
the game is over, while depth 1 returns the maximizing-rule mate score. -/
theorem depth_zero_tested_before_game_over_witness :
    (minimax_alpha_beta overGame 0 ⟨(), []⟩ ⊥ ⊤ true).1 = qv (overGame.evaluate ()) ∧
    overGame.isGameOver () = true ∧
    (minimax_alpha_beta overGame 1 ⟨(), []⟩ ⊥ ⊤ true).1 = qv (-100000) := by
  refine ⟨depth_zero_tested_before_game_over.1 Unit overGame ⟨(), []⟩ ⊥ ⊤ true, rfl, ?_⟩
  have h := depth_zero_tested_before_game_over.2 Unit overGame 0 ⟨(), []⟩ ⊥ ⊤ true rfl
  simpa using h

/-- Counterexample to claim C2 as stated: the en-passant capture e5xd6 in
the position `k7/8/8/3pP3/8/8/8/7K w - d6` is a capture, yet its
pre-bonus candidate score is `0`, not
`(value of captured pawn) - (value of moving pawn) + 1000 = 1000`,
because the captured pawn does not stand on the destination square. -/
theorem capture_score_en_passant_counterexample :
    epGame.isCapture () epMove = true ∧
    captureScore epGame () epMove = 0 ∧
    ¬(captureScore epGame () epMove =
        piece_values PieceType.pawn - piece_values PieceType.pawn + 1000) := by
  refine ⟨by decide, by decide, by decide⟩

/-- Claim C2 (amended): for every capture move whose destination square
is occupied (every capture kind except en passant), the pre-bonus
candidate score equals the material value of the captured piece minus the
material value of the moving piece plus 1000; for every non-capture move,
and for every en-passant capture (destination square empty), the
pre-bonus score is 0. -/
theorem capture_score_spec :
    (∀ (Pos : Type) (G : Game Pos) (p : Pos) (m : Move) (v a : Piece),
      G.isCapture p m = true → G.pieceAt p m.toSquare = some v →
      G.pieceAt p m.fromSquare = some a →
      captureScore G p m = piece_values v.ptype - piece_values a.ptype + 1000) ∧
    (∀ (Pos : Type) (G : Game Pos) (p : Pos) (m : Move),
      G.isCapture p m = false → captureScore G p m = 0) ∧
    (∀ (Pos : Type) (G : Game Pos) (p : Pos) (m : Move),
      G.pieceAt p m.toSquare = none → captureScore G p m = 0) := by
  refine ⟨?_, ?_, ?_⟩
  · intro Pos G p m v a hc hv ha
    simp [captureScore, hc, hv, ha]
  · intro Pos G p m hc
    simp [captureScore, hc]
  · intro Pos G p m hv
    unfold captureScore
    rw [hv]
    split <;> rfl

/-- Witness for C2 (amended): a2xb3 capturing a rook scores
`500 - 100 + 1000`; the non-capture e2e4 scores 0; the en-passant capture
e5xd6 scores 0. -/
theorem capture_score_spec_witness :
    capGame.isCapture () capMove = true ∧
    capGame.pieceAt () capMove.toSquare = some ⟨false, .rook⟩ ∧
    capGame.pieceAt () capMove.fromSquare = some whitePawn ∧
    captureScore capGame () capMove =
      piece_values PieceType.rook - piece_values PieceType.pawn + 1000 ∧
    startGame.isCapture () mvE2E4 = false ∧
    captureScore startGame () mvE2E4 = 0 ∧
    epGame.pieceAt () epMove.toSquare = none ∧
    captureScore epGame () epMove = 0 :=
  ⟨by decide, by decide, by decide,
   capture_score_spec.1 Unit capGame () capMove ⟨false, .rook⟩ whitePawn
     (by decide) (by decide) (by decide),
   by decide,
   capture_score_spec.2.1 Unit startGame () mvE2E4 (by decide),
   by decide,
   capture_score_spec.2.2 Unit epGame () epMove (by decide)⟩

/-- Claim C6: for every position and every list of moves, the Move
Orderer returns a permutation of the input (same multiset), arranged in
descending order of the computed move scores, and among equal-scored
moves the original relative input order is preserved (each score class is
returned exactly as it appears in the input: a stable descending
sort). -/
theorem order_moves_fast_spec :
    ∀ (Pos : Type) (G : Game Pos) (b : Board Pos) (ms : List Move),
      ((order_moves_fast G b ms).1.Perm ms) ∧
      List.Pairwise (fun m1 m2 => scoreOfMove G b m2 ≤ scoreOfMove G b m1)
        (order_moves_fast G b ms).1 ∧
      (∀ s : ℤ, List.filter (fun m => decide (scoreOfMove G b m = s))
          (order_moves_fast G b ms).1 =
        List.filter (fun m => decide (scoreOfMove G b m = s)) ms) := by
  intro Pos G b ms
  have hord : (order_moves_fast G b ms).1 =
      ((ms.map (fun m => (scoreOfMove G b m, m))).insertionSort moveDesc).map
        (fun x => x.2) := by
    simp [order_moves_fast, scoreMoves_eq]
  set fn : Move → ℤ × Move := fun m => (scoreOfMove G b m, m) with hfn
  set pairs : List (ℤ × Move) := ms.map fn with hpairs
  have hmem1 : ∀ x ∈ pairs.insertionSort moveDesc, x.1 = scoreOfMove G b x.2 := by
    intro x hx
    rw [List.mem_insertionSort, hpairs] at hx
    obtain ⟨m, _, rfl⟩ := List.mem_map.mp hx
    rfl
  have hsnd : pairs.map (fun x : ℤ × Move => x.2) = ms := by
    rw [hpairs, List.map_map]
    exact List.map_id' ms
  refine ⟨?_, ?_, ?_⟩
  · rw [hord]
    have h1 := (List.perm_insertionSort moveDesc pairs).map (fun x : ℤ × Move => x.2)
    rwa [hsnd] at h1
  · rw [hord, List.pairwise_map]
    have hs := List.sorted_insertionSort moveDesc pairs
    refine List.Pairwise.imp_of_mem ?_ hs
    intro x y hx hy hxy
    have h1 := hmem1 x hx
    have h2 := hmem1 y hy
    show scoreOfMove G b y.2 ≤ scoreOfMove G b x.2
    rw [← h1, ← h2]
    exact hxy
  · intro s
    rw [hord]
    set p : Move → Bool := fun m => decide (scoreOfMove G b m = s) with hp
    set q : (ℤ × Move) → Bool := fun x => decide (x.1 = s) with hq
    rw [List.filter_map]
    have hcong : List.filter (p ∘ (fun x : ℤ × Move => x.2))
        (pairs.insertionSort moveDesc) = List.filter q (pairs.insertionSort moveDesc) := by
      apply List.filter_congr
      intro x hx
      have hx1 := hmem1 x hx
      simp [hp, hq, Function.comp, hx1]
    rw [hcong]
    have hstep2 : List.filter q (pairs.insertionSort moveDesc) = List.filter q pairs := by
      have hsubl : (List.filter q pairs).Sublist pairs := List.filter_sublist pairs
      have hpw : (List.filter q pairs).Pairwise moveDesc := by
        apply List.pairwise_of_forall_mem_list
        intro x hx y hy
        have hx1 : x.1 = s := by
          have hh := (List.mem_filter.mp hx).2
          simpa [hq] using hh
        have hy1 : y.1 = s := by
          have hh := (List.mem_filter.mp hy).2
          simpa [hq] using hh
        show y.1 ≤ x.1
        rw [hx1, hy1]
      have hst : (List.filter q pairs).Sublist (pairs.insertionSort moveDesc) :=
        List.sublist_insertionSort hpw hsubl
      have hself : List.filter q (List.filter q pairs) = List.filter q pairs := by
        rw [List.filter_eq_self]
        intro a ha
        exact (List.mem_filter.mp ha).2
      have hsub2 : (List.filter q pairs).Sublist
          (List.filter q (pairs.insertionSort moveDesc)) := by
        have hh := hst.filter q
        rwa [hself] at hh
      have hlen : (List.filter q pairs).length
          = (List.filter q (pairs.insertionSort moveDesc)).length :=
        (((List.perm_insertionSort moveDesc pairs).filter q).length_eq).symm
      exact (hsub2.eq_of_length hlen).symm
    rw [hstep2, hpairs, List.filter_map, List.map_map]
    have hcong2 : List.filter (q ∘ fn) ms = List.filter p ms := by
      apply List.filter_congr
      intro m _
      rfl
    rw [hcong2]
    exact List.map_id' _

theorem le_mmMaxLoop : ∀ (cs : List GameTree) (acc : ER), acc ≤ mmMaxLoop cs acc := by
  intro cs
  induction cs with
  | nil => intro acc; simp [mmMaxLoop]
  | cons c cs ih =>
    intro acc
    simp only [mmMaxLoop]
    exact le_trans (le_max_left _ _) (ih _)

theorem mmMaxLoop_mono : ∀ (cs : List GameTree) {a b : ER}, a ≤ b →
    mmMaxLoop cs a ≤ mmMaxLoop cs b := by
  intro cs
  induction cs with
  | nil => intro a b h; simpa [mmMaxLoop] using h
  | cons c cs ih =>
    intro a b h
    simp only [mmMaxLoop]
    exact ih (max_le_max h le_rfl)

theorem mmMaxLoop_eq_max : ∀ (cs : List GameTree) (acc : ER),
    mmMaxLoop cs acc = max acc (mmMaxLoop cs ⊥) := by
  intro cs
  induction cs with
  | nil => intro acc; simp [mmMaxLoop]
  | cons c cs ih =>
    intro acc
    simp only [mmMaxLoop]
    rw [ih (max acc (exhaustiveMinimax c false)), ih (max ⊥ (exhaustiveMinimax c false))]
    rw [bot_sup_eq]
    exact max_assoc _ _ _

theorem le_treeMaxLoop : ∀ (cs : List GameTree) (alpha beta acc : ER),
    acc ≤ treeMaxLoop cs alpha beta acc := by
  intro cs
  induction cs with
  | nil => intro alpha beta acc; simp [treeMaxLoop]
  | cons c cs ih =>
    intro alpha beta acc
    simp only [treeMaxLoop]
    split
    · exact le_max_left _ _
    · exact le_trans (le_max_left _ _) (ih _ _ _)

theorem mmMinLoop_le : ∀ (cs : List GameTree) (acc : ER), mmMinLoop cs acc ≤ acc := by
  intro cs
  induction cs with
  | nil => intro acc; simp [mmMinLoop]
  | cons c cs ih =>
    intro acc
    simp only [mmMinLoop]
    exact le_trans (ih _) (min_le_left _ _)

theorem mmMinLoop_mono : ∀ (cs : List GameTree) {a b : ER}, a ≤ b →
    mmMinLoop cs a ≤ mmMinLoop cs b := by
  intro cs
  induction cs with
  | nil => intro a b h; simpa [mmMinLoop] using h
  | cons c cs ih =>
    intro a b h
    simp only [mmMinLoop]
    exact ih (min_le_min h le_rfl)

theorem mmMinLoop_eq_min : ∀ (cs : List GameTree) (acc : ER),
    mmMinLoop cs acc = min acc (mmMinLoop cs ⊤) := by
  intro cs
  induction cs with
  | nil => intro acc; simp [mmMinLoop]
  | cons c cs ih =>
    intro acc
    simp only [mmMinLoop]
    rw [ih (min acc (exhaustiveMinimax c true)), ih (min ⊤ (exhaustiveMinimax c true))]
    rw [top_inf_eq]
    exact min_assoc _ _ _

theorem treeMinLoop_le : ∀ (cs : List GameTree) (alpha beta acc : ER),
    treeMinLoop cs alpha beta acc ≤ acc := by
  intro cs
  induction cs with
  | nil => intro alpha beta acc; simp [treeMinLoop]
  | cons c cs ih =>
    intro alpha beta acc
    simp only [treeMinLoop]
    split
    · exact min_le_left _ _
    · exact le_trans (ih _ _ _) (min_le_left _ _)

theorem treeMaxLoop_KM :
    ∀ (cs : List GameTree),
      (∀ c ∈ cs, ∀ (alpha beta : ER), alpha < beta →
        KM (treeAlphaBeta c alpha beta false) (exhaustiveMinimax c false) alpha beta) →
      ∀ (alpha beta acc : ER), alpha < beta → acc ≤ alpha →
        KM (treeMaxLoop cs alpha beta acc) (mmMaxLoop cs acc) alpha beta := by
  intro cs
  induction cs with
  | nil =>
    intro _ alpha beta acc _ _
    simp only [treeMaxLoop, mmMaxLoop]
    exact ⟨fun _ => le_rfl, fun _ => le_rfl, fun _ _ => rfl⟩
  | cons c cs ih =>
    intro hc alpha beta acc hab hacc
    obtain ⟨k1, k2, k3⟩ := hc c (List.mem_cons_self c cs) alpha beta hab
    have hcrest : ∀ c' ∈ cs, ∀ (alpha beta : ER), alpha < beta →
        KM (treeAlphaBeta c' alpha beta false) (exhaustiveMinimax c' false) alpha beta :=
      fun c' h' => hc c' (List.mem_cons_of_mem c h')
    simp only [treeMaxLoop, mmMaxLoop]
    by_cases hbr : beta ≤ max alpha (treeAlphaBeta c alpha beta false)
    · rw [if_pos hbr]
      have hbe : beta ≤ treeAlphaBeta c alpha beta false := by
        rcases le_max_iff.mp hbr with h | h
        · exact absurd h (not_le.mpr hab)
        · exact h
      have heVc : treeAlphaBeta c alpha beta false ≤ exhaustiveMinimax c false := k2 hbe
      have hacc_lt : acc < treeAlphaBeta c alpha beta false :=
        lt_of_le_of_lt hacc (lt_of_lt_of_le hab hbe)
      rw [max_eq_right (le_of_lt hacc_lt)]
      refine ⟨?_, ?_, ?_⟩
      · intro hle
        exact absurd hle (not_le.mpr (lt_of_lt_of_le hab hbe))
      · intro _
        calc treeAlphaBeta c alpha beta false ≤ exhaustiveMinimax c false := heVc
          _ ≤ max acc (exhaustiveMinimax c false) := le_max_right _ _
          _ ≤ mmMaxLoop cs (max acc (exhaustiveMinimax c false)) := le_mmMaxLoop _ _
      · intro _ hvb
        exact absurd hvb (not_lt.mpr hbe)
    · rw [if_neg hbr]
      have hab' : max alpha (treeAlphaBeta c alpha beta false) < beta := not_le.mp hbr
      by_cases healpha : treeAlphaBeta c alpha beta false ≤ alpha
      · -- the child failed low: its result bounds its true value from above
        have hVce : exhaustiveMinimax c false ≤ treeAlphaBeta c alpha beta false :=
          k1 healpha
        rw [max_eq_left healpha]
        have hacc' : max acc (treeAlphaBeta c alpha beta false) ≤ alpha :=
          max_le hacc healpha
        obtain ⟨i1, i2, i3⟩ := ih hcrest alpha beta
          (max acc (treeAlphaBeta c alpha beta false)) hab hacc'
        refine ⟨?_, ?_, ?_⟩
        · intro hle
          refine le_trans ?_ (i1 hle)
          exact mmMaxLoop_mono cs (max_le_max le_rfl hVce)
        · intro hge
          have hv1 := i2 hge
          rw [mmMaxLoop_eq_max] at hv1
          have hnacc : ¬(treeMaxLoop cs alpha beta
              (max acc (treeAlphaBeta c alpha beta false)) ≤
              max acc (treeAlphaBeta c alpha beta false)) :=
            not_le.mpr (lt_of_le_of_lt hacc'
              (lt_of_lt_of_le hab hge))
          have hvF : treeMaxLoop cs alpha beta
              (max acc (treeAlphaBeta c alpha beta false)) ≤ mmMaxLoop cs ⊥ := by
            rcases le_max_iff.mp hv1 with h | h
            · exact absurd h hnacc
            · exact h
          rw [mmMaxLoop_eq_max]
          exact le_trans hvF (le_max_right _ _)
        · intro hgt hlt
          have hv1 := i3 hgt hlt
          rw [mmMaxLoop_eq_max] at hv1
          have haccv : max acc (treeAlphaBeta c alpha beta false) <
              treeMaxLoop cs alpha beta (max acc (treeAlphaBeta c alpha beta false)) :=
            lt_of_le_of_lt hacc' hgt
          have hvF : treeMaxLoop cs alpha beta
              (max acc (treeAlphaBeta c alpha beta false)) = mmMaxLoop cs ⊥ := by
            rcases max_choice (max acc (treeAlphaBeta c alpha beta false))
                (mmMaxLoop cs ⊥) with h | h
            · rw [h] at hv1
              exact absurd hv1.symm (ne_of_lt haccv)
            · rw [h] at hv1
              exact hv1
          rw [mmMaxLoop_eq_max]
          rw [hvF]
          have hVca : max acc (exhaustiveMinimax c false) ≤ mmMaxLoop cs ⊥ := by
            have h1 : max acc (exhaustiveMinimax c false) ≤
                max acc (treeAlphaBeta c alpha beta false) := max_le_max le_rfl hVce
            have h2 : max acc (treeAlphaBeta c alpha beta false) < mmMaxLoop cs ⊥ := by
              rw [← hvF]
              exact haccv
            exact le_of_lt (lt_of_le_of_lt h1 h2)
          exact (max_eq_right hVca).symm
      · -- the child's result is exact
        have halphaE : max alpha (treeAlphaBeta c alpha beta false) =
            treeAlphaBeta c alpha beta false :=
          max_eq_right (le_of_lt (not_le.mp healpha))
        have heb : treeAlphaBeta c alpha beta false < beta := by
          rw [halphaE] at hab'
          exact hab'
        have heVc : treeAlphaBeta c alpha beta false = exhaustiveMinimax c false :=
          k3 (not_le.mp healpha) heb
        rw [halphaE]
        have hacc' : max acc (treeAlphaBeta c alpha beta false) ≤
            treeAlphaBeta c alpha beta false :=
          max_le (le_of_lt (lt_of_le_of_lt hacc (not_le.mp healpha))) le_rfl
        have habE : treeAlphaBeta c alpha beta false < beta := heb
        obtain ⟨i1, i2, i3⟩ := ih hcrest (treeAlphaBeta c alpha beta false) beta
          (max acc (treeAlphaBeta c alpha beta false)) habE hacc'
        have hMM : mmMaxLoop cs (max acc (treeAlphaBeta c alpha beta false)) =
            mmMaxLoop cs (max acc (exhaustiveMinimax c false)) := by
          rw [heVc]
        refine ⟨?_, ?_, ?_⟩
        · intro hle
          rw [← hMM]
          exact i1 (le_trans hle (le_of_lt (not_le.mp healpha)))
        · intro hge
          rw [← hMM]
          exact i2 hge
        · intro hgt hlt
          rw [← hMM]
          have hgev : max acc (treeAlphaBeta c alpha beta false) ≤
              treeMaxLoop cs (treeAlphaBeta c alpha beta false) beta
                (max acc (treeAlphaBeta c alpha beta false)) :=
            le_treeMaxLoop _ _ _ _
          have hgeE : treeAlphaBeta c alpha beta false ≤
              treeMaxLoop cs (treeAlphaBeta c alpha beta false) beta
                (max acc (treeAlphaBeta c alpha beta false)) :=
            le_trans (le_max_right _ _) hgev
          rcases lt_or_eq_of_le hgeE with h | h
          · exact i3 h hlt
          · have hveq : treeMaxLoop cs (treeAlphaBeta c alpha beta false) beta
                (max acc (treeAlphaBeta c alpha beta false)) =
                max acc (treeAlphaBeta c alpha beta false) :=
              le_antisymm (by rw [← h]; exact le_max_right _ _) hgev
            refine le_antisymm ?_ ?_
            · rw [hveq]
              exact le_mmMaxLoop _ _
            · exact i1 (le_of_eq h.symm)

theorem treeMinLoop_KM :
    ∀ (cs : List GameTree),
      (∀ c ∈ cs, ∀ (alpha beta : ER), alpha < beta →
        KM (treeAlphaBeta c alpha beta true) (exhaustiveMinimax c true) alpha beta) →
      ∀ (alpha beta acc : ER), alpha < beta → beta ≤ acc →
        KM (treeMinLoop cs alpha beta acc) (mmMinLoop cs acc) alpha beta := by
  intro cs
  induction cs with
  | nil =>
    intro _ alpha beta acc _ _
    simp only [treeMinLoop, mmMinLoop]
    exact ⟨fun _ => le_rfl, fun _ => le_rfl, fun _ _ => rfl⟩
  | cons c cs ih =>
    intro hc alpha beta acc hab hacc
    obtain ⟨k1, k2, k3⟩ := hc c (List.mem_cons_self c cs) alpha beta hab
    have hcrest : ∀ c' ∈ cs, ∀ (alpha beta : ER), alpha < beta →
        KM (treeAlphaBeta c' alpha beta true) (exhaustiveMinimax c' true) alpha beta :=
      fun c' h' => hc c' (List.mem_cons_of_mem c h')
    simp only [treeMinLoop, mmMinLoop]
    by_cases hbr : min beta (treeAlphaBeta c alpha beta true) ≤ alpha
    · rw [if_pos hbr]
      have hbe : treeAlphaBeta c alpha beta true ≤ alpha := by
        rcases min_le_iff.mp hbr with h | h
        · exact absurd h (not_le.mpr hab)
        · exact h
      have heVc : exhaustiveMinimax c true ≤ treeAlphaBeta c alpha beta true := k1 hbe
      have hacc_lt : treeAlphaBeta c alpha beta true < acc :=
        lt_of_le_of_lt hbe (lt_of_lt_of_le hab hacc)
      rw [min_eq_right (le_of_lt hacc_lt)]
      refine ⟨?_, ?_, ?_⟩
      · intro _
        calc mmMinLoop cs (min acc (exhaustiveMinimax c true)) ≤
            min acc (exhaustiveMinimax c true) := mmMinLoop_le _ _
          _ ≤ exhaustiveMinimax c true := min_le_right _ _
          _ ≤ treeAlphaBeta c alpha beta true := heVc
      · intro hge
        exact absurd hge (not_le.mpr (lt_of_le_of_lt hbe hab))
      · intro hgt _
        exact absurd hgt (not_lt.mpr hbe)
    · rw [if_neg hbr]
      have hab' : alpha < min beta (treeAlphaBeta c alpha beta true) := not_le.mp hbr
      by_cases hebeta : beta ≤ treeAlphaBeta c alpha beta true
      · -- the child failed high: its result bounds its true value from below
        have hVce : treeAlphaBeta c alpha beta true ≤ exhaustiveMinimax c true :=
          k2 hebeta
        rw [min_eq_left hebeta]
        have hacc' : beta ≤ min acc (treeAlphaBeta c alpha beta true) :=
          le_min hacc hebeta
        obtain ⟨i1, i2, i3⟩ := ih hcrest alpha beta
          (min acc (treeAlphaBeta c alpha beta true)) hab hacc'
        refine ⟨?_, ?_, ?_⟩
        · intro hle
          have hv1 := i1 hle
          rw [mmMinLoop_eq_min] at hv1
          have hnacc : ¬(min acc (treeAlphaBeta c alpha beta true) ≤
              treeMinLoop cs alpha beta (min acc (treeAlphaBeta c alpha beta true))) :=
            not_le.mpr (lt_of_le_of_lt hle (lt_of_lt_of_le hab hacc'))
          have hFv : mmMinLoop cs ⊤ ≤
              treeMinLoop cs alpha beta (min acc (treeAlphaBeta c alpha beta true)) := by
            rcases min_le_iff.mp hv1 with h | h
            · exact absurd h hnacc
            · exact h
          rw [mmMinLoop_eq_min]
          exact le_trans (min_le_right _ _) hFv
        · intro hge
          refine le_trans (i2 hge) ?_
          exact mmMinLoop_mono cs (min_le_min le_rfl hVce)
        · intro hgt hlt
          have hv1 := i3 hgt hlt
          rw [mmMinLoop_eq_min] at hv1
          have haccv : treeMinLoop cs alpha beta
              (min acc (treeAlphaBeta c alpha beta true)) <
              min acc (treeAlphaBeta c alpha beta true) :=
            lt_of_lt_of_le hlt hacc'
          have hvF : treeMinLoop cs alpha beta
              (min acc (treeAlphaBeta c alpha beta true)) = mmMinLoop cs ⊤ := by
            rcases min_choice (min acc (treeAlphaBeta c alpha beta true))
                (mmMinLoop cs ⊤) with h | h
            · rw [h] at hv1
              exact absurd hv1 (ne_of_lt haccv)
            · rw [h] at hv1
              exact hv1
          rw [mmMinLoop_eq_min, hvF]
          have hVca : mmMinLoop cs ⊤ ≤ min acc (exhaustiveMinimax c true) := by
            have h1 : min acc (treeAlphaBeta c alpha beta true) ≤
                min acc (exhaustiveMinimax c true) := min_le_min le_rfl hVce
            have h2 : mmMinLoop cs ⊤ < min acc (treeAlphaBeta c alpha beta true) := by
              rw [← hvF]
              exact haccv
            exact le_of_lt (lt_of_lt_of_le h2 h1)
          exact (min_eq_right hVca).symm
      · -- the child's result is exact
        have hbetaE : min beta (treeAlphaBeta c alpha beta true) =
            treeAlphaBeta c alpha beta true :=
          min_eq_right (le_of_lt (not_le.mp hebeta))
        have hea : alpha < treeAlphaBeta c alpha beta true := by
          rw [hbetaE] at hab'
          exact hab'
        have heVc : treeAlphaBeta c alpha beta true = exhaustiveMinimax c true :=
          k3 hea (not_le.mp hebeta)
        rw [hbetaE]
        have hacc' : treeAlphaBeta c alpha beta true ≤
            min acc (treeAlphaBeta c alpha beta true) :=
          le_min (le_of_lt (lt_of_lt_of_le (not_le.mp hebeta) hacc)) le_rfl
        obtain ⟨i1, i2, i3⟩ := ih hcrest alpha (treeAlphaBeta c alpha beta true)
          (min acc (treeAlphaBeta c alpha beta true)) hea hacc'
        have hMM : mmMinLoop cs (min acc (treeAlphaBeta c alpha beta true)) =
            mmMinLoop cs (min acc (exhaustiveMinimax c true)) := by
          rw [heVc]
        refine ⟨?_, ?_, ?_⟩
        · intro hle
          rw [← hMM]
          exact i1 hle
        · intro hge
          rw [← hMM]
          exact i2 (le_trans (le_of_lt (not_le.mp hebeta)) hge)
        · intro hgt hlt
          rw [← hMM]
          have hgev : treeMinLoop cs alpha (treeAlphaBeta c alpha beta true)
                (min acc (treeAlphaBeta c alpha beta true)) ≤
              min acc (treeAlphaBeta c alpha beta true) :=
            treeMinLoop_le _ _ _ _
          have hgeE : treeMinLoop cs alpha (treeAlphaBeta c alpha beta true)
                (min acc (treeAlphaBeta c alpha beta true)) ≤
              treeAlphaBeta c alpha beta true :=
            le_trans hgev (min_le_right _ _)
          rcases lt_or_eq_of_le hgeE with h | h
          · exact i3 hgt h
          · have hveq : treeMinLoop cs alpha (treeAlphaBeta c alpha beta true)
                (min acc (treeAlphaBeta c alpha beta true)) =
                min acc (treeAlphaBeta c alpha beta true) :=
              le_antisymm hgev (le_trans (min_le_right acc _) (le_of_eq h.symm))
            refine le_antisymm ?_ ?_
            · exact i2 (le_of_eq h.symm)
            · rw [hveq]
              exact mmMinLoop_le _ _

theorem treeAlphaBeta_KM_aux :
    ∀ (n : ℕ) (t : GameTree), sizeOf t < n → ∀ (alpha beta : ER) (m : Bool),
      alpha < beta →
      KM (treeAlphaBeta t alpha beta m) (exhaustiveMinimax t m) alpha beta := by
  intro n
  induction n with
  | zero =>
    intro t ht
    exact absurd ht (Nat.not_lt_zero _)
  | succ n ih =>
    intro t ht alpha beta m hab
    match t with
    | .leaf v =>
      simp only [treeAlphaBeta, exhaustiveMinimax]
      exact ⟨fun _ => le_rfl, fun _ => le_rfl, fun _ _ => rfl⟩
    | .node cs =>
      have hsize : ∀ c ∈ cs, sizeOf c < n := by
        intro c hcmem
        have h1 : sizeOf c < sizeOf cs := List.sizeOf_lt_of_mem hcmem
        have h2 : sizeOf (GameTree.node cs) = 1 + sizeOf cs := by
          simp
        omega
      cases m with
      | true =>
        simp only [treeAlphaBeta, exhaustiveMinimax]
        refine treeMaxLoop_KM cs ?_ alpha beta ⊥ hab bot_le
        intro c hcmem alpha' beta' hab'
        exact ih c (hsize c hcmem) alpha' beta' false hab'
      | false =>
        simp only [treeAlphaBeta, exhaustiveMinimax]
        refine treeMinLoop_KM cs ?_ alpha beta ⊤ hab le_top
        intro c hcmem alpha' beta' hab'
        exact ih c (hsize c hcmem) alpha' beta' true hab'

theorem treeAlphaBeta_KM (t : GameTree) (alpha beta : ER) (m : Bool)
    (hab : alpha < beta) :
    KM (treeAlphaBeta t alpha beta m) (exhaustiveMinimax t m) alpha beta :=
  treeAlphaBeta_KM_aux (sizeOf t + 1) t (Nat.lt_succ_self _) alpha beta m hab

/-- Claim C3: over every move tree (every position unfolded to every
depth) and either root player, the alpha-beta search with the full
initial window `alpha = -infinity, beta = +infinity` returns exactly the
same score as the exhaustive minimax (no pruning) over the same tree with
the same leaf evaluation. -/
theorem alphabeta_full_window_eq_minimax :
    ∀ (t : GameTree) (m : Bool), treeAlphaBeta t ⊥ ⊤ m = exhaustiveMinimax t m := by
  intro t m
  obtain ⟨h1, h2, h3⟩ := treeAlphaBeta_KM t ⊥ ⊤ m bot_lt_top
  by_cases hle : treeAlphaBeta t ⊥ ⊤ m ≤ ⊥
  · have hv : treeAlphaBeta t ⊥ ⊤ m = ⊥ := le_bot_iff.mp hle
    have hV := h1 hle
    rw [hv] at hV ⊢
    exact (le_bot_iff.mp hV).symm
  · by_cases hge : (⊤ : ER) ≤ treeAlphaBeta t ⊥ ⊤ m
    · have hv : treeAlphaBeta t ⊥ ⊤ m = ⊤ := top_le_iff.mp hge
      have hV := h2 hge
      rw [hv] at hV ⊢
      exact (top_le_iff.mp hV).symm
    · exact h3 (not_le.mp hle) (not_le.mp hge)

/-- Claim C5: for every checkmate position the evaluator returns -100000
when White is the side to move and +100000 when Black is the side to
move; for every stalemate or insufficient-material position it returns
exactly 0 — the terminal constants, not divided by 100. -/
theorem evaluate_board_terminal :
    ∀ (P : EPos),
      (P.checkmate = true → P.turn = true → evaluate_board P = -100000) ∧
      (P.checkmate = true → P.turn = false → evaluate_board P = 100000) ∧
      (P.checkmate = false → (P.stalemate = true ∨ P.insufficientMaterial = true) →
        evaluate_board P = 0) := by
  intro P
  refine ⟨?_, ?_, ?_⟩
  · intro hc ht
    simp [evaluate_board, hc, ht]
  · intro hc ht
    simp [evaluate_board, hc, ht]
  · intro hc hs
    rcases hs with h | h <;> simp [evaluate_board, hc, h]

/-- Witness for C5 at three concrete terminal positions. -/
theorem evaluate_board_terminal_witness :
    evaluate_board mateWhitePos = -100000 ∧
    evaluate_board mateBlackPos = 100000 ∧
    evaluate_board stalematePos = 0 :=
  ⟨(evaluate_board_terminal mateWhitePos).1 rfl rfl,
   (evaluate_board_terminal mateBlackPos).2.1 rfl rfl,
   (evaluate_board_terminal stalematePos).2.2 rfl (Or.inl rfl)⟩

theorem mirrorSq_mirrorSq : ∀ (sq : Fin 64), mirrorSq (mirrorSq sq) = sq := by decide

theorem fileOf_mirrorSq : ∀ (sq : Fin 64), fileOf (mirrorSq sq) = fileOf sq := by decide

theorem rankOf_mirrorSq : ∀ (sq : Fin 64), rankOf (mirrorSq sq) = 7 - rankOf sq := by
  decide

theorem rankOf_lt : ∀ (sq : Fin 64), rankOf sq < 8 := by decide

theorem mirrorSq_bijective : Function.Bijective mirrorSq :=
  Function.Involutive.bijective (fun sq => mirrorSq_mirrorSq sq)

theorem flipPiece_flipPiece : ∀ (p : Piece), flipPiece (flipPiece p) = p := by
  intro p
  obtain ⟨c, t⟩ := p
  cases c <;> rfl

theorem get_positional_bonus_flip (p : Piece) (sq : Fin 64) :
    get_positional_bonus (flipPiece p) (mirrorSq sq) = get_positional_bonus p sq := by
  obtain ⟨c, t⟩ := p
  cases c <;> simp [get_positional_bonus, flipPiece, mirrorSq_mirrorSq sq]

theorem pieceContrib_flip (op : Option Piece) (sq : Fin 64) :
    pieceContrib (op.map flipPiece) (mirrorSq sq) = -pieceContrib op sq := by
  cases op with
  | none => simp [pieceContrib]
  | some p =>
    have hb := get_positional_bonus_flip p sq
    obtain ⟨c, t⟩ := p
    cases c <;>
      simp_all [pieceContrib, flipPiece]

theorem materialPositional_mirror (P : EPos) :
    materialPositional (mirrorEPos P) = -materialPositional P := by
  unfold materialPositional
  rw [show (mirrorEPos P).pieces = fun sq => (P.pieces (mirrorSq sq)).map flipPiece
    from rfl]
  rw [Fintype.sum_bijective mirrorSq mirrorSq_bijective
    (fun sq => pieceContrib ((P.pieces (mirrorSq sq)).map flipPiece) sq)
    (fun sq => -pieceContrib (P.pieces sq) sq) ?_]
  · exact Finset.sum_neg_distrib
  · intro x
    have h := pieceContrib_flip (P.pieces (mirrorSq x)) (mirrorSq x)
    rw [mirrorSq_mirrorSq x] at h
    exact h

theorem mirrorSq_squareOf (f r : ℕ) (hr : r < 8) :
    mirrorSq (squareOf f r) = squareOf f (7 - r) := by
  apply Fin.ext
  show (f % 8 + 8 * (r % 8)) % 8 + 8 * (7 - (f % 8 + 8 * (r % 8)) / 8)
      = f % 8 + 8 * ((7 - r) % 8)
  omega

theorem map_flip_eq_some (op : Option Piece) (p : Piece) :
    op.map flipPiece = some p ↔ op = some (flipPiece p) := by
  rw [Option.map_eq_some']
  constructor
  · rintro ⟨a, ha, rfl⟩
    rw [ha, flipPiece_flipPiece]
  · intro h
    exact ⟨flipPiece p, h, flipPiece_flipPiece p⟩

theorem mirror_pieces_ne_pawn (P : EPos) (f ρ : ℕ) (hρ : ρ < 8) :
    ((mirrorEPos P).pieces (squareOf f ρ) ≠ some blackPawn ↔
      P.pieces (squareOf f (7 - ρ)) ≠ some whitePawn) := by
  rw [show (mirrorEPos P).pieces (squareOf f ρ)
      = (P.pieces (mirrorSq (squareOf f ρ))).map flipPiece from rfl]
  rw [mirrorSq_squareOf f ρ hρ]
  rw [ne_eq, map_flip_eq_some]
  rw [show flipPiece blackPawn = whitePawn from rfl]

theorem whitePassed_mirror (P : EPos) (f r : ℕ) (hr : r < 8) :
    whitePassed (mirrorEPos P) f (7 - r) = blackPassed P f r := by
  unfold whitePassed blackPassed
  rw [Bool.eq_iff_iff]
  simp only [List.all_eq_true, Bool.not_eq_true', beq_eq_false_iff_ne]
  constructor
  · intro h f' hf' ρ hρ
    have hρr : ρ < r := List.mem_range.mp hρ
    have hmem : (7 - ρ) ∈ List.range' (7 - r + 1) (8 - (7 - r + 1)) := by
      rw [List.mem_range']
      exact ⟨r - 1 - ρ, by omega, by omega⟩
    have h2 := h f' hf' (7 - ρ) hmem
    rw [mirror_pieces_ne_pawn P f' (7 - ρ) (by omega)] at h2
    rw [show 7 - (7 - ρ) = ρ from by omega] at h2
    exact h2
  · intro h f' hf' ρ hρ
    obtain ⟨i, hi, hρeq⟩ := List.mem_range'.mp hρ
    have hρ8 : ρ < 8 := by omega
    rw [mirror_pieces_ne_pawn P f' ρ hρ8]
    have hmem : (7 - ρ) ∈ List.range r := by
      rw [List.mem_range]
      omega
    exact h f' hf' (7 - ρ) hmem

theorem mirrorEPos_mirrorEPos (P : EPos) : mirrorEPos (mirrorEPos P) = P := by
  obtain ⟨pieces, turn, c, s, i, mob⟩ := P
  simp only [mirrorEPos, Bool.not_not]
  congr 1
  funext sq
  rw [mirrorSq_mirrorSq, Option.map_map]
  cases h : pieces sq
  · rfl
  · simp [Function.comp, flipPiece_flipPiece]

theorem blackPassed_mirror (P : EPos) (f r : ℕ) (hr : r < 8) :
    blackPassed (mirrorEPos P) f (7 - r) = whitePassed P f r := by
  have h := whitePassed_mirror (mirrorEPos P) f (7 - r) (by omega)
  rw [mirrorEPos_mirrorEPos] at h
  rw [show 7 - (7 - r) = r from by omega] at h
  exact h.symm

theorem pawn_structure_mirror (P : EPos) :
    evaluate_pawn_structure_simple (mirrorEPos P) = -evaluate_pawn_structure_simple P := by
  unfold evaluate_pawn_structure_simple
  have hrank : ∀ x : Fin 64, ((rankOf (mirrorSq x) : ℤ)) = 7 - (rankOf x : ℤ) := by
    intro x
    rw [rankOf_mirrorSq x]
    have h7 : rankOf x ≤ 7 := Nat.lt_succ_iff.mp (rankOf_lt x)
    push_cast [Nat.cast_sub h7]
    ring
  have hW : (∑ sq : Fin 64,
        if (mirrorEPos P).pieces sq = some whitePawn ∧
            whitePassed (mirrorEPos P) (fileOf sq) (rankOf sq) = true then
          (rankOf sq : ℤ) * 10
        else 0)
      = ∑ sq : Fin 64,
          if P.pieces sq = some blackPawn ∧
              blackPassed P (fileOf sq) (rankOf sq) = true then
            (7 - (rankOf sq : ℤ)) * 10
          else 0 := by
    apply Fintype.sum_bijective mirrorSq mirrorSq_bijective
    intro x
    have hpiece : ((mirrorEPos P).pieces x = some whitePawn) ↔
        (P.pieces (mirrorSq x) = some blackPawn) := by
      rw [show (mirrorEPos P).pieces x = (P.pieces (mirrorSq x)).map flipPiece from rfl]
      rw [map_flip_eq_some]
      rw [show flipPiece whitePawn = blackPawn from rfl]
    have hpassed : whitePassed (mirrorEPos P) (fileOf x) (rankOf x) =
        blackPassed P (fileOf (mirrorSq x)) (rankOf (mirrorSq x)) := by
      have h := whitePassed_mirror P (fileOf x) (rankOf (mirrorSq x)) (rankOf_lt _)
      rw [fileOf_mirrorSq]
      rw [show 7 - rankOf (mirrorSq x) = rankOf x from by
        rw [rankOf_mirrorSq x]
        have := rankOf_lt x
        omega] at h
      exact h
    refine if_congr (and_congr hpiece (by rw [hpassed])) ?_ rfl
    rw [hrank x]
    ring
  have hB : (∑ sq : Fin 64,
        if (mirrorEPos P).pieces sq = some blackPawn ∧
            blackPassed (mirrorEPos P) (fileOf sq) (rankOf sq) = true then
          (7 - (rankOf sq : ℤ)) * 10
        else 0)
      = ∑ sq : Fin 64,
          if P.pieces sq = some whitePawn ∧
              whitePassed P (fileOf sq) (rankOf sq) = true then
            (rankOf sq : ℤ) * 10
          else 0 := by
    apply Fintype.sum_bijective mirrorSq mirrorSq_bijective
    intro x
    have hpiece : ((mirrorEPos P).pieces x = some blackPawn) ↔
        (P.pieces (mirrorSq x) = some whitePawn) := by
      rw [show (mirrorEPos P).pieces x = (P.pieces (mirrorSq x)).map flipPiece from rfl]
      rw [map_flip_eq_some]
      rw [show flipPiece blackPawn = whitePawn from rfl]
    have hpassed : blackPassed (mirrorEPos P) (fileOf x) (rankOf x) =
        whitePassed P (fileOf (mirrorSq x)) (rankOf (mirrorSq x)) := by
      have h := blackPassed_mirror P (fileOf x) (rankOf (mirrorSq x)) (rankOf_lt _)
      rw [fileOf_mirrorSq]
      rw [show 7 - rankOf (mirrorSq x) = rankOf x from by
        rw [rankOf_mirrorSq x]
        have := rankOf_lt x
        omega] at h
      exact h
    refine if_congr (and_congr hpiece (by rw [hpassed])) ?_ rfl
    rw [hrank x]
  rw [hW, hB]
  ring

/-- Claim C9: for every position `P` and its colour-mirrored counterpart
(pieces reflected vertically with colours swapped, side to move swapped),
the evaluation with the mobility contribution removed from both sides is
exactly antisymmetric: the material, piece-square, rook-file,
queen-centralisation, pawn-structure and terminal components all negate
under colour mirroring. -/
theorem evaluate_mirror_antisymmetric :
    ∀ (P : EPos), evaluate_board P - mobilityContrib P =
      -(evaluate_board (mirrorEPos P) - mobilityContrib (mirrorEPos P)) := by
  intro P
  by_cases hc : P.checkmate = true
  · have hc' : (mirrorEPos P).checkmate = true := hc
    cases ht : P.turn <;>
      simp [evaluate_board, mobilityContrib, mirrorEPos, hc, ht]
  · have hcf : P.checkmate = false := by simpa using hc
    by_cases hs : P.stalemate = true
    · simp [evaluate_board, mobilityContrib, mirrorEPos, hcf, hs]
    · have hsf : P.stalemate = false := by simpa using hs
      by_cases hi : P.insufficientMaterial = true
      · simp [evaluate_board, mobilityContrib, mirrorEPos, hcf, hsf, hi]
      · have hif : P.insufficientMaterial = false := by simpa using hi
        have hm := materialPositional_mirror P
        have hp := pawn_structure_mirror P
        have hcm : (mirrorEPos P).checkmate = false := hcf
        have hsm : (mirrorEPos P).stalemate = false := hsf
        have him : (mirrorEPos P).insufficientMaterial = false := hif
        simp only [evaluate_board, mobilityContrib, hcf, hsf, hif, hcm, hsm, him,
          Bool.false_or, Bool.or_self, if_false, Bool.false_eq_true]
        rw [hm, hp]
        push_cast
        ring

/-- Claim C7: a position with exactly one legal move is returned
immediately: no opening-book lookup, no move ordering, and zero search
nodes. -/
theorem single_legal_move_shortcut :
    ∀ (Pos : Type) (G : Game Pos) (p : Pos) (max_depth : ℕ) (time_limit : ℚ)
      (clock : ℕ → ℚ) (m : Move), G.legalMoves p = [m] →
      get_best_move_fast G p max_depth time_limit clock = (some m, ⟨0, 0, 0⟩) := by
  intro Pos G p max_depth time_limit clock m h
  unfold get_best_move_fast
  rw [h]
  simp

/-- Witness for C7 at a concrete one-legal-move position. -/
theorem single_legal_move_shortcut_witness :
    oneMoveGame.legalMoves () = [uciMove 0 1] ∧
    get_best_move_fast oneMoveGame () 3 2 (fun _ => 0) = (some (uciMove 0 1), ⟨0, 0, 0⟩) :=
  ⟨rfl, single_legal_move_shortcut Unit oneMoveGame () 3 2 (fun _ => 0) (uciMove 0 1) rfl⟩

theorem firstLegal_mem :
    ∀ (legal l : List Move) (m : Move), firstLegal legal l = some m → m ∈ legal := by
  intro legal l
  induction l with
  | nil =>
    intro m hm
    simp [firstLegal] at hm
  | cons a t ih =>
    intro m hm
    simp only [firstLegal] at hm
    split at hm
    · cases hm
      assumption
    · exact ih m hm

theorem get_opening_move_mem {Pos : Type} (G : Game Pos) (p : Pos) (m : Move)
    (h : get_opening_move G p = some m) : m ∈ G.legalMoves p := by
  simp only [get_opening_move] at h
  split at h
  · exact firstLegal_mem _ _ _ h
  · cases h

theorem order_moves_fast_perm {Pos : Type} (G : Game Pos) (b : Board Pos)
    (ms : List Move) : (order_moves_fast G b ms).1.Perm ms := by
  have hord : (order_moves_fast G b ms).1 =
      ((ms.map (fun m => (scoreOfMove G b m, m))).insertionSort moveDesc).map
        (fun x => x.2) := by
    simp [order_moves_fast, scoreMoves_eq]
  rw [hord]
  have h1 := (List.perm_insertionSort moveDesc
    (ms.map (fun m => (scoreOfMove G b m, m)))).map (fun x : ℤ × Move => x.2)
  have h2 : (ms.map (fun m => (scoreOfMove G b m, m))).map (fun x : ℤ × Move => x.2)
      = ms := by
    rw [List.map_map]
    exact List.map_id' ms
  rwa [h2] at h1

theorem rootMoveLoop_inv {Pos : Type} (G : Game Pos) (d : ℕ) (start limit : ℚ)
    (clock : ℕ → ℚ) (ordered : List Move) (bestSoFar : Option Move)
    (hne : ordered ≠ [])
    (hbest : ∀ m, bestSoFar = some m → m ∈ ordered) :
    ∀ (ms : List Move) (b : Board Pos) (i : ℕ) (cb : Option Move) (cbv : ER)
      (nodes : ℕ),
      (cb = none → cbv = ⊥) → (∀ m, cb = some m → m ∈ ordered) →
      (∀ m, m ∈ ms → m ∈ ordered) →
      (((rootMoveLoop G d start limit clock ordered bestSoFar ms b i cb cbv
          nodes).cb = none →
        (rootMoveLoop G d start limit clock ordered bestSoFar ms b i cb cbv
          nodes).cbv = ⊥) ∧
       (∀ m, (rootMoveLoop G d start limit clock ordered bestSoFar ms b i cb cbv
          nodes).cb = some m → m ∈ ordered) ∧
       (∀ r, (rootMoveLoop G d start limit clock ordered bestSoFar ms b i cb cbv
          nodes).hardReturn = some r → ∃ m, r = some m ∧ m ∈ ordered)) := by
  intro ms
  induction ms with
  | nil =>
    intro b i cb cbv nodes h1 h2 _
    refine ⟨h1, h2, ?_⟩
    intro r hr
    cases hr
  | cons m ms ih =>
    intro b i cb cbv nodes h1 h2 h3
    simp only [rootMoveLoop]
    split
    · refine ⟨h1, h2, ?_⟩
      intro r hr
      cases hr
      cases hb : bestSoFar with
      | some mv =>
        exact ⟨mv, rfl, hbest mv hb⟩
      | none =>
        cases ho : ordered with
        | nil => exact absurd ho hne
        | cons o os =>
          exact ⟨o, rfl, List.mem_cons_self o os⟩
    · split
      · exact ih _ _ _ _ _ (by intro h; cases h)
          (fun m' hm' => by cases hm'; exact h3 m (List.mem_cons_self m ms))
          (fun m' hm' => h3 m' (List.mem_cons_of_mem m hm'))
      · exact ih _ _ _ _ _ h1 h2
          (fun m' hm' => h3 m' (List.mem_cons_of_mem m hm'))

theorem deepenLoop_some {Pos : Type} (G : Game Pos) (start limit : ℚ)
    (clock : ℕ → ℚ) (ordered : List Move) (hne : ordered ≠ []) :
    ∀ (ds : List ℕ) (b : Board Pos) (i : ℕ) (best : Option Move) (nodes : ℕ),
      (∀ m, best = some m → m ∈ ordered) →
      ∃ m, (deepenLoop G start limit clock ordered ds b i best nodes).1 = some m ∧
        m ∈ ordered := by
  intro ds
  induction ds with
  | nil =>
    intro b i best nodes hbest
    simp only [deepenLoop]
    cases hb : best with
    | some m => exact ⟨m, rfl, hbest m hb⟩
    | none =>
      cases ho : ordered with
      | nil => exact absurd ho hne
      | cons o os =>
        exact ⟨o, rfl, List.mem_cons_self o os⟩
  | cons dep ds ih =>
    intro b i best nodes hbest
    simp only [deepenLoop]
    obtain ⟨o1, o2, o3⟩ := rootMoveLoop_inv G (dep - 1) start limit clock ordered
      best hne hbest ordered b i none ⊥ 0 (fun _ => rfl) (fun m hm => by cases hm)
      (fun m hm => hm)
    set out := rootMoveLoop G (dep - 1) start limit clock ordered best ordered b i
      none ⊥ 0 with hout
    have hbest' : ∀ m, (match out.cb with
        | some m => some m
        | none => best) = some m → m ∈ ordered := by
      intro m hm
      cases hcb : out.cb with
      | some mv =>
        rw [hcb] at hm
        injection hm with hmv
        subst hmv
        exact o2 _ hcb
      | none =>
        rw [hcb] at hm
        exact hbest m hm
    cases hhr : out.hardReturn with
    | some ret =>
      obtain ⟨m, hm, hmem⟩ := o3 ret hhr
      exact ⟨m, hm, hmem⟩
    | none =>
      by_cases hmate : qv 5000 < out.cbv
      · rw [if_pos hmate]
        cases hcb : out.cb with
        | none =>
          rw [o1 hcb] at hmate
          exact absurd hmate not_lt_bot
        | some mv =>
          exact ⟨mv, rfl, o2 mv hcb⟩
      · rw [if_neg hmate]
        by_cases htime : limit / 2 < clock out.clockIdx - start
        · rw [if_pos htime]
          cases hcb : out.cb with
          | some mv =>
            exact ⟨mv, rfl, o2 mv hcb⟩
          | none =>
            cases hb : best with
            | some mv =>
              exact ⟨mv, rfl, hbest mv hb⟩
            | none =>
              cases ho : ordered with
              | nil => exact absurd ho hne
              | cons o os =>
                exact ⟨o, rfl, List.mem_cons_self o os⟩
        · rw [if_neg htime]
          exact ih _ _ _ _ hbest'

theorem get_best_move_fast_some {Pos : Type} (G : Game Pos) (p : Pos)
    (max_depth : ℕ) (time_limit : ℚ) (clock : ℕ → ℚ)
    (hne : G.legalMoves p ≠ []) :
    ∃ m, (get_best_move_fast G p max_depth time_limit clock).1 = some m ∧
      m ∈ G.legalMoves p := by
  cases hL : G.legalMoves p with
  | nil => exact absurd hL hne
  | cons a t =>
    by_cases hlen : t = []
    · subst hlen
      refine ⟨a, ?_, ?_⟩
      · simp [get_best_move_fast, hL]
      · exact List.mem_cons_self a []
    · cases hbook : get_opening_move G p with
      | some m =>
        refine ⟨m, ?_, hL ▸ get_opening_move_mem G p m hbook⟩
        simp [get_best_move_fast, hL, hbook, hlen]
      | none =>
        have hperm := order_moves_fast_perm G ⟨p, []⟩ (a :: t)
        have hone : (order_moves_fast G ⟨p, []⟩ (a :: t)).1 ≠ [] := by
          intro h0
          rw [h0] at hperm
          cases List.perm_nil.mp hperm.symm
        obtain ⟨m, hm, hmem⟩ := deepenLoop_some G (clock 0) time_limit clock
          (order_moves_fast G ⟨p, []⟩ (a :: t)).1 hone (List.range' 1 max_depth)
          (order_moves_fast G ⟨p, []⟩ (a :: t)).2 1 none 0 (fun m hm => by cases hm)
        refine ⟨m, ?_, ?_⟩
        · simpa [get_best_move_fast, hL, hbook, hlen] using hm
        · exact hperm.mem_iff.mp hmem

/-- Claim C8: `select_move` returns none if and only if the position has
no legal moves; whenever at least one legal move exists — whatever the
time budget and whatever the wall clock reads, including a budget already
exhausted at the first check — the returned move is a member of the
position's legal-move list. -/
theorem select_move_none_iff_no_legal :
    ∀ (Pos : Type) (G : Game Pos) (p : Pos) (max_depth : ℕ) (time_limit : ℚ)
      (clock : ℕ → ℚ),
      ((get_best_move_fast G p max_depth time_limit clock).1 = none ↔
        G.legalMoves p = []) ∧
      (∀ m, (get_best_move_fast G p max_depth time_limit clock).1 = some m →
        m ∈ G.legalMoves p) := by
  intro Pos G p max_depth time_limit clock
  by_cases hne : G.legalMoves p = []
  · refine ⟨⟨fun _ => hne, fun _ => ?_⟩, fun m hm => ?_⟩
    · simp [get_best_move_fast, hne]
    · simp [get_best_move_fast, hne] at hm
  · obtain ⟨m0, hm0, hmem0⟩ :=
      get_best_move_fast_some G p max_depth time_limit clock hne
    refine ⟨⟨fun hnone => ?_, fun h => absurd h hne⟩, fun m hm => ?_⟩
    · rw [hm0] at hnone
      cases hnone
    · rw [hm0] at hm
      injection hm with h
      subst h
      exact hmem0

/-- Witness for C8: at a two-legal-move position with a zero clock, the
selected move is a legal one and the result is not none. -/
theorem select_move_none_iff_no_legal_witness :
    ((get_best_move_fast twoMoveGame () 1 10 (fun _ => 0)).1 = none ↔
      twoMoveGame.legalMoves () = []) ∧
    uciMove 0 1 ∈ twoMoveGame.legalMoves () :=
  ⟨(select_move_none_iff_no_legal Unit twoMoveGame () 1 10 (fun _ => 0)).1,
   (select_move_none_iff_no_legal Unit twoMoveGame () 1 10 (fun _ => 0)).2
     (uciMove 0 1) (by with_unfolding_all decide)⟩

/-- Claim C1 (code bug): the opening book can never produce a move.  The
lookup key is `board.fen().split(' ')[0]` — the piece-placement portion,
which contains no space — but the dictionary keys are full FEN strings
containing spaces, so the lookup misses for every position.  At the
standard starting position in particular (its placement prefix and the
legality of e2e4 are verified below), `select_move` with `max_depth = 1`
therefore runs the search (20 nodes at depth 1, one ordering pass) and
returns the first ordered move a2a3 instead of short-circuiting with the
book move e2e4. -/
theorem opening_book_never_matches :
    (∀ (Pos : Type) (G : Game Pos) (p : Pos), get_opening_move G p = none) ∧
    fenHead (startGame.fen ()) = "rnbqkbnr/pppppppp/8/8/8/8/PPPPPPPP/RNBQKBNR" ∧
    mvE2E4 ∈ startGame.legalMoves () ∧
    (get_best_move_fast startGame () 1 10 (fun _ => 0)).1 = some (uciMove 8 16) ∧
    (get_best_move_fast startGame () 1 10 (fun _ => 0)).2 = ⟨20, 1, 1⟩ := by
  refine ⟨?_, by decide, by decide, by with_unfolding_all decide,
    by with_unfolding_all decide⟩
  intro Pos G p
  simp only [get_opening_move]
  cases hf : opening_moves.find? (fun e => e.1 == fenHead (G.fen p)) with
  | none => rfl
  | some entry =>
    exfalso
    have hbeq := List.find?_some hf
    have hmem := List.mem_of_find?_eq_some hf
    have heq : entry.1 = fenHead (G.fen p) := eq_of_beq hbeq
    have hsp : ' ' ∈ entry.1.data := by
      simp only [opening_moves, List.mem_cons, List.not_mem_nil, or_false] at hmem
      rcases hmem with h | h
      · rw [h]
        decide
      · rw [h]
        decide
    rw [heq] at hsp
    have htw := List.mem_takeWhile_imp hsp
    simp at htw

end ChessBot
